import Mathlib

/-!
# Verification of `Permutation.js`

A shallow embedding of the permutation library (`src/unnamed/part_000`,
the complete revision of `src/Permutation.js`) together with proofs about
its behaviour.

Modelling conventions:

* A JavaScript number stored in a permutation slot is modelled as `Option ℤ`:
  `some v` is the number `v`, `none` is the JavaScript value `undefined`.
  `undefined` genuinely arises at run time: `compose` reads `this[theta[i]]`
  which is `undefined` whenever `theta[i]` falls outside the index range, and
  the resulting array can still pass validation (in JS, `undefined > 35` and
  `undefined < 0` are both `false`).
* The constructor returns `undefined` when validation fails; the spec reads
  this as "construction yields no valid object", which we model as
  `Option Permutation` (`Permutation.mk?`).
* `PERMUTATION_INDEX` is 0, so the dynamically-named instance fields
  `this[PERMUTATION_INDEX + i] = arr[i]` coincide with positions of a list;
  we store them as `values : List (Option ℤ)` and an index read `this[j]`
  becomes `values.getD j none` (out-of-range reads give `undefined`).
* Loops that can genuinely diverge in JS (the cycle-chasing `while` loop
  follows `j = perm[j]`, and once `j` is `undefined` it stays `undefined`
  forever, never comparing equal to the starting index) are modelled with
  fuel; `none` marks divergence.
-/

/-- Source: `var PERMUTATION_INDEX = 0;` -/
def PERMUTATION_INDEX : ℤ := 0

/-- Source: `var MAX_ALLOWED_PERMUTATION_INDEX = 35;` -/
def MAX_ALLOWED_PERMUTATION_INDEX : ℤ := 35

/-- `'0'.charCodeAt(0)` -/
def C0 : ℤ := ('0'.toNat : ℤ)

/-- `'9'.charCodeAt(0)` -/
def C9 : ℤ := ('9'.toNat : ℤ)

/-- `'A'.charCodeAt(0)` -/
def CA : ℤ := ('A'.toNat : ℤ)

/-- `'Z'.charCodeAt(0)` -/
def CZ : ℤ := ('Z'.toNat : ℤ)

/-- JavaScript `x > b` where `x` may be `undefined`: comparisons with
`undefined` (NaN after coercion) are `false`. -/
def jsGt : Option ℤ → ℤ → Bool
  | some v, b => v > b
  | none, _ => false

/-- JavaScript `x < b` where `x` may be `undefined`. -/
def jsLt : Option ℤ → ℤ → Bool
  | some v, b => v < b
  | none, _ => false

/-- Source: `Array.prototype.hasDuplicates`.  The JS code counts occurrences
keyed by the stringified element and reports whether any count reaches 2;
distinct numbers (and `undefined`) have distinct keys, so this is exactly
"some element occurs at least twice". -/
def hasDuplicates (arr : List (Option ℤ)) : Bool :=
  arr.any (fun x => 2 ≤ arr.count x)

/-- Source: `validatePermutationArray`.  Rejects arrays with duplicates, and
arrays with an element `> MAX_ALLOWED_PERMUTATION_INDEX` or
`< PERMUTATION_INDEX`.  Note that a JS `undefined` entry passes the range
check, because both comparisons are `false` on `undefined`. -/
def validatePermutationArray (arr : List (Option ℤ)) : Bool :=
  if hasDuplicates arr then false
  else arr.all (fun x => !(jsGt x MAX_ALLOWED_PERMUTATION_INDEX || jsLt x PERMUTATION_INDEX))

/-- A successfully constructed `Permutation`: the stored slots together with
the fact that the initializer array passed `validatePermutationArray`
(otherwise the constructor bails out and no valid object is produced). -/
structure Permutation where
  values : List (Option ℤ)
  valid : validatePermutationArray values = true

instance : DecidableEq Permutation := fun p q =>
  decidable_of_iff (p.values = q.values)
    (by cases p; cases q; simp)

/-- `new Permutation(arr)`: `some` on validation success, `none` when the
constructor refuses the array. -/
def Permutation.mk? (arr : List (Option ℤ)) : Option Permutation :=
  if h : validatePermutationArray arr = true then some ⟨arr, h⟩ else none

/-- Constructing a permutation from an array of actual integers (the intended
use; JS callers pass number arrays). -/
def Permutation.fromIntArray (arr : List ℤ) : Option Permutation :=
  Permutation.mk? (arr.map some)

/-- The read-only `length` getter. -/
def Permutation.length (p : Permutation) : ℕ := p.values.length

/-- `Permutation.prototype.at`: `this[i + PERMUTATION_INDEX]`.  With the
default base offset 0 this reads slot `i`; out-of-range reads give
`undefined`. -/
def Permutation.at' (p : Permutation) (i : ℕ) : Option ℤ :=
  p.values.getD i none

/-- Source: `Permutation.fromFunction(func, n)`. -/
def Permutation.fromFunction (func : ℕ → ℤ) (n : ℕ) : Option Permutation :=
  Permutation.mk? ((List.range n).map (fun i => some (func i)))

/-- Source: `Permutation.getIdentity(n)`. -/
def Permutation.getIdentity (n : ℕ) : Option Permutation :=
  Permutation.fromFunction (fun i => (i : ℤ) + PERMUTATION_INDEX) n

/-- Source: `Permutation.prototype.clone`. -/
def Permutation.clone (p : Permutation) : Option Permutation :=
  Permutation.mk? p.values

/-- In the source, `Permutation.equals = function(left, right)` iterates
`for (var i = 0; i < this.length; ++i)`.  Called as `Permutation.equals(...)`
(also by the prototype method), `this` is the `Permutation` constructor
*function*, whose `.length` property is its declared parameter count: the
constructor `function(arr)` has one parameter.  So the loop bound is 1. -/
def constructorFunctionLength : ℕ := 1

/-- Source: `Permutation.equals(left, right)` — compares `left.at(i)` and
`right.at(i)` for `i` below `this.length` (see
`constructorFunctionLength`).  JS `!=` on two `undefined`s is `false`, so
`Option` equality is the right notion. -/
def Permutation.equalsFn (left right : Permutation) : Bool :=
  (List.range constructorFunctionLength).all (fun i => left.at' i == right.at' i)

/-- JS `String.fromCharCode`: truncates its argument to an unsigned 16-bit
integer and yields that code unit.  (For code points in the surrogate range
JS produces a lone surrogate; `Char.ofNat` maps those to `'\0'` — no theorem
below evaluates the function there.) -/
def jsFromCharCode (x : ℤ) : Char :=
  Char.ofNat (x.emod 65536).toNat

/-- Source: `Permutation.getChar(i)`.  Note the second branch tests only
`i <= MAX_ALLOWED_PERMUTATION_INDEX`; a negative `i` falls into it and
produces a character instead of failing. -/
def getChar (i : ℤ) : Option Char :=
  if 0 ≤ i ∧ i ≤ 9 then some (jsFromCharCode (C0 + i))
  else if i ≤ MAX_ALLOWED_PERMUTATION_INDEX then some (jsFromCharCode (CA + (i - 10)))
  else none

/-- Source: `Permutation.parseChar(c)`. -/
def parseChar (c : Char) : Option ℤ :=
  let i : ℤ := (c.toNat : ℤ)
  if C0 ≤ i ∧ i ≤ C9 then some (i - C0)
  else if CA ≤ i ∧ i ≤ CZ then some ((i + 10) - CA)
  else none

/-- Source: `Permutation.prototype.toString` — pushes
`Permutation.getChar(this[i])` over the domain and joins with `''`.
`getChar` of an `undefined` slot returns `undefined` (both branch guards are
`false`), and `Array.prototype.join` renders `undefined` as the empty
string, i.e. drops it — hence `filterMap`. -/
def Permutation.toStr (p : Permutation) : List Char :=
  p.values.filterMap (fun v => v.bind getChar)

/-- The inner `while` loop of `getCycles`: starting from `j = perm[i]`,
repeatedly push `j` and set `j = perm[j]` until `j == i`.  If `j` ever falls
outside the stored index range (or hits a stored `undefined`), the JS value
becomes `undefined`, and then `perm[undefined]` is `undefined` again: the
loop never terminates.  We model that divergence as `none`; the fuel only
bounds in-range orbits, and `values.length + 1` steps are enough for those
(see `followFrom_spec`). -/
def followFrom (vals : List (Option ℤ)) (i : ℕ) : ℕ → ℤ → Option (List ℕ)
  | 0, _ => none
  | fuel + 1, j =>
    if j = (i : ℤ) then some []
    else if 0 ≤ j ∧ j < (vals.length : ℤ) then
      match vals.getD j.toNat none with
      | some v => (followFrom vals i fuel v).map (fun rest => j.toNat :: rest)
      | none => none
    else none

/-- The outer `for` loop of `getCycles` over logical indices, carrying the
`already_used` set (as the list of all members of cycles emitted so far).
A new cycle starts at `i` when `perm[i] != i` and `i` is not yet used; the
cycle is `i` followed by the pushed orbit.  If `perm[i]` is a stored
`undefined`, the inner loop diverges immediately (`undefined != i` forever),
hence `none`. -/
def getCyclesGo (vals : List (Option ℤ)) : List ℕ → List ℕ → Option (List (List ℕ))
  | [], _ => some []
  | i :: is, used =>
    if vals.getD i none ≠ some (i : ℤ) ∧ i ∉ used then
      match vals.getD i none with
      | some v =>
        match followFrom vals i (vals.length + 1) v with
        | some rest => (getCyclesGo vals is (used ++ i :: rest)).map
            (fun cs => (i :: rest) :: cs)
        | none => none
      | none => none
    else getCyclesGo vals is used

/-- Source: the `getCycles(perm)` closure inside the constructor. -/
def getCycles (vals : List (Option ℤ)) : Option (List (List ℕ)) :=
  getCyclesGo vals (List.range vals.length) []

/-- The `.cycles` lazy getter (caching does not change the computed value). -/
def Permutation.cycles (p : Permutation) : Option (List (List ℕ)) :=
  getCycles p.values

/-- Source: `Permutation.prototype.toCycleString` — for each cycle appends
`'(' + cycle.flatten('') + ')'`.  `join('')` on an array of numbers concatenates
their *decimal* renderings. -/
def Permutation.toCycleString (p : Permutation) : Option (List Char) :=
  p.cycles.map (fun cs =>
    cs.foldl (fun acc c => acc ++ ('(' :: (c.map (fun k => (Nat.repr k).toList)).flatten ++ [')'])) [])

/-- The running-maximum step shared by the `max_char` scan of `fromString`
and `getHighestChar`: update the accumulator when `parseChar` yields a
larger code; `parseChar` of an unknown character is `undefined`, and
`undefined > h` is `false`, so such characters are skipped. -/
def charScanStep (h2 : ℤ) (c : Char) : ℤ :=
  match parseChar c with
  | some v => if h2 < v then v else h2
  | none => h2

/-- The `max_char` scan in `fromString`. -/
def maxCharFold (s : List Char) : ℤ :=
  s.foldl charScanStep 0

/-- The JS loop `for (var i = 0; i <= n; ++i)` over an integer bound: empty
for negative `n`, otherwise `[0, 1, …, n]`. -/
def intRangeTo (n : ℤ) : List ℤ :=
  (List.range (n + 1).toNat).map (fun k : ℕ => (k : ℤ))

/-- `s.indexOf(c, start)`: position of the first occurrence of `c` at or
after `start`, if any. -/
def indexOfFrom (s : List Char) (c : Char) (start : ℕ) : Option ℕ :=
  if (s.drop start).indexOf c < (s.drop start).length then
    some (start + (s.drop start).indexOf c)
  else none

/-- The `splitCycles` helper of `fromCycleString`: for every position `i`
holding `'('` (in order), let `j` be the first `')'` at or after `i`; when
`j > 0 && j > i + 2` keep `s.substring(i+1, j)`.  (As the source comment
says, a group must have at least 2 characters to be kept.) -/
def splitCycles (s : List Char) : List (List Char) :=
  (List.range s.length).filterMap (fun i =>
    if s.getD i ' ' = '(' then
      match indexOfFrom s ')' i with
      | some j => if 0 < j ∧ i + 2 < j then some ((s.drop (i + 1)).take (j - (i + 1))) else none
      | none => none
    else none)

/-- One step of the `followCycles` helper: look `value` up in the cycle
(first occurrence); if found and not last, move to the next character, if
found last wrap to the first character, otherwise leave `value` alone. -/
def applyCycle (cyc : List Char) (value : Char) : Char :=
  let index := cyc.indexOf value
  if index < cyc.length then
    if index < cyc.length - 1 then cyc.getD (index + 1) value
    else cyc.getD 0 value
  else value

/-- The `followCycles(cycles, char)` helper: applies the cycles from the
*last* extracted cycle down to the first (`for (var i = cycles.length - 1;
i >= 0; --i)`). -/
def followCycles (cycles : List (List Char)) (c : Char) : Char :=
  cycles.foldr applyCycle c

/-- The `getHighestChar` helper: the largest `parseChar` code over all
characters of all cycles, starting from 0 (`undefined > highest` is `false`,
so unknown characters are skipped). -/
def getHighestChar (cycles : List (List Char)) : ℤ :=
  cycles.foldl (fun h cyc => cyc.foldl charScanStep h) 0

/-- Source: `Permutation.fromCycleString(s, n)`.  The outer `Option` models
a thrown `TypeError`: the loop body is
`arr.push(Permutation.parseChar(followCycles(splits, Permutation.getChar(i))))`,
and when `getChar(i)` is `undefined` (possible only when an explicit `n > 35`
is supplied — an inferred `n` is a `parseChar` code, hence at most 35),
`parseChar` calls `charCodeAt` on `undefined` and throws.  (We do not model
the exotic case of a cycle containing the literal text `undefined`, which no
theorem below touches.)  The inner `Option` is the constructor's result. -/
def fromCycleString (s : List Char) (nArg : Option ℤ) : Option (Option Permutation) :=
  let splits := splitCycles s
  let N : ℤ := match nArg with
    | some n => n
    | none => getHighestChar splits
  ((intRangeTo N).mapM (fun i =>
    match getChar i with
    | some c => some (parseChar (followCycles splits c))
    | none => none)).map Permutation.mk?

/-- Source: `Permutation.fromString(s)`.  Dispatches to `fromCycleString`
when the string contains `'('`; otherwise scans for the largest decoded
character code `max_char` and builds the array of length `max_char + 1`,
reading `parseChar(s[j])` below the string length and padding with the
fixed point `j` beyond it. -/
def fromString (s : List Char) : Option (Option Permutation) :=
  if s.contains '(' then fromCycleString s none
  else
    let max_char := maxCharFold s
    some (Permutation.mk? ((intRangeTo max_char).map (fun j =>
      if j < (s.length : ℤ) then parseChar (s.getD j.toNat ' ')
      else some j)))

/-- Source: `Permutation.prototype.compose(theta)` — `undefined` when the
lengths differ, otherwise `new Permutation(arr)` with
`arr[i] = this[theta[i]]`.  `theta[i]` may be a stored `undefined`, and
`this[v]` is `undefined` for `v` outside the index range. -/
def Permutation.compose (p theta : Permutation) : Option Permutation :=
  if theta.length ≠ p.length then none
  else Permutation.mk? ((List.range p.length).map (fun i =>
    match theta.values.getD i none with
    | some v => if 0 ≤ v then p.values.getD v.toNat none else none
    | none => none))

/-- The permutation as a function on indices: the stored image for in-range
slots holding a number, and (arbitrarily) the index itself outside the
range.  For a `Proper` permutation this is the genuine underlying bijection
extended by the identity. -/
def permFn (p : Permutation) (k : ℕ) : ℕ :=
  match p.values.getD k none with
  | some v => v.toNat
  | none => k

/-- A slot holding an actual number below the length bound `n`. -/
def properSlot (n : ℕ) : Option ℤ → Bool
  | some v => decide (0 ≤ v ∧ v < (n : ℤ))
  | none => false

/-- A validly constructed permutation whose stored values moreover form a
bijection of its own index range: every slot holds a number below the
length.  (Validation alone does *not* imply this.) -/
def Permutation.Proper (p : Permutation) : Prop :=
  ∀ x ∈ p.values, properSlot p.values.length x = true

instance (p : Permutation) : Decidable p.Proper :=
  List.decidableBAll _ p.values

/-- The orbit of `i` under `f`, in application order:
`[i, f i, f (f i), …]` of length `m`. -/
def orbitList (f : ℕ → ℕ) (i m : ℕ) : List ℕ :=
  (List.range m).map (fun k => f^[k] i)

/-- `b` is reachable from `a` by iterating `f`. -/
def reaches (f : ℕ → ℕ) (a b : ℕ) : Prop :=
  ∃ k : ℕ, f^[k] a = b

/-- The claim's rendering rule for cycle strings: each element converted to
its *single-character* encoding (`getChar`).  Stated from the spec's words,
to be compared against the code's decimal `join('')`. -/
def cycleStringClaim (cs : List (List ℕ)) : List Char :=
  (cs.map (fun c => '(' :: c.filterMap (fun k : ℕ => getChar (k : ℤ)) ++ [')'])).flatten

/-- The permutation `[1, 2, 0]` of the spec's examples. -/
def perm120 : Permutation := ⟨[some 1, some 2, some 0], by decide⟩

/-- The identity permutation on `{0, 1, 2}`. -/
def permId3 : Permutation := ⟨[some 0, some 1, some 2], by decide⟩

/-- The permutation `[0, 2, 1]`, equal to `permId3` at index 0 only. -/
def perm021 : Permutation := ⟨[some 0, some 2, some 1], by decide⟩

/-- The valid but non-bijective permutation `[1]`: its sole value 1 passes
validation (distinct, within `[0, 35]`) yet is not below the length. -/
def permB1 : Permutation := ⟨[some 1], by decide⟩

/-- The identity on `{0}`. -/
def permZero : Permutation := ⟨[some 0], by decide⟩

/-- `[0, 1]`. -/
def permId2 : Permutation := ⟨[some 0, some 1], by decide⟩

/-- `[2, 3]`: valid (distinct values in `[0, 35]`), not bijective. -/
def perm23 : Permutation := ⟨[some 2, some 3], by decide⟩

/-- The permutation on 12 points swapping 10 and 11. -/
def permSwap1011 : Permutation :=
  ⟨[some 0, some 1, some 2, some 3, some 4, some 5, some 6, some 7, some 8, some 9,
    some 11, some 10], by decide⟩

/-! ## Basic facts about validation and construction -/

theorem Permutation.ext' {p q : Permutation} (h : p.values = q.values) : p = q := by
  cases p; cases q; simpa using h

theorem hasDuplicates_eq_false_iff {arr : List (Option ℤ)} :
    hasDuplicates arr = false ↔ arr.Nodup := by
  rw [hasDuplicates, List.any_eq_false, List.nodup_iff_sublist]
  constructor
  · intro h a ha
    have hm : a ∈ arr := ha.subset (by simp)
    have h2 := h a hm
    simp only [decide_eq_true_eq, not_le] at h2
    have h3 : 2 ≤ arr.count a := List.le_count_iff_replicate_sublist.mpr (by simpa using ha)
    omega
  · intro h x hx
    simp only [decide_eq_true_eq, not_le]
    by_contra h2
    push_neg at h2
    exact h x (by simpa using List.le_count_iff_replicate_sublist.mp h2)

theorem validate_iff {arr : List (Option ℤ)} :
    validatePermutationArray arr = true ↔
      arr.Nodup ∧ ∀ v : ℤ, some v ∈ arr → 0 ≤ v ∧ v ≤ 35 := by
  rw [validatePermutationArray]
  cases hdup : hasDuplicates arr with
  | true =>
    rw [if_pos rfl]
    constructor
    · intro h; cases h
    · rintro ⟨hnd, -⟩
      rw [← hasDuplicates_eq_false_iff, hdup] at hnd
      cases hnd
  | false =>
    rw [if_neg (by simp), List.all_eq_true]
    constructor
    · intro h
      refine ⟨hasDuplicates_eq_false_iff.mp hdup, fun v hv => ?_⟩
      have h2 := h _ hv
      simp only [jsGt, jsLt, MAX_ALLOWED_PERMUTATION_INDEX, PERMUTATION_INDEX,
        Bool.not_eq_true', Bool.or_eq_false_iff, decide_eq_false_iff_not, not_lt] at h2
      omega
    · rintro ⟨-, h⟩ x hx
      cases x with
      | none => simp [jsGt, jsLt]
      | some v =>
        have h2 := h v hx
        simp only [jsGt, jsLt, MAX_ALLOWED_PERMUTATION_INDEX, PERMUTATION_INDEX,
          Bool.not_eq_true', Bool.or_eq_false_iff, decide_eq_false_iff_not, not_lt]
        omega

theorem nodup_of_valid (p : Permutation) : p.values.Nodup :=
  (validate_iff.mp p.valid).1

theorem range_of_valid (p : Permutation) : ∀ v : ℤ, some v ∈ p.values → 0 ≤ v ∧ v ≤ 35 :=
  (validate_iff.mp p.valid).2

theorem mk?_eq_some {arr : List (Option ℤ)} {p : Permutation} :
    Permutation.mk? arr = some p ↔ validatePermutationArray arr = true ∧ p.values = arr := by
  rw [Permutation.mk?]
  split
  · rename_i h
    constructor
    · intro hs
      cases hs
      exact ⟨h, rfl⟩
    · rintro ⟨-, hv⟩
      have hpq : p = ⟨arr, h⟩ := Permutation.ext' hv
      rw [hpq]
  · rename_i h
    constructor
    · intro hs; cases hs
    · rintro ⟨hv, -⟩; exact absurd hv h

theorem mk?_eq_none {arr : List (Option ℤ)} :
    Permutation.mk? arr = none ↔ validatePermutationArray arr = false := by
  rw [Permutation.mk?]
  split <;> rename_i h <;> simp [h]

/-! ## C1: construction contract for integer arrays -/

/-- C1: constructing a `Permutation` from an integer array fails (no valid
object results) when the array has duplicates or an entry outside
`[PERMUTATION_INDEX, MAX_ALLOWED_PERMUTATION_INDEX]`; for every
duplicate-free array within that range it succeeds, the result has the
array's length, and `at(i)` equals `v[i]` on the whole domain. -/
theorem c1_fromArray_contract (v : List ℤ) :
    ((¬ v.Nodup ∨ ∃ x ∈ v, x < PERMUTATION_INDEX ∨ MAX_ALLOWED_PERMUTATION_INDEX < x) →
      Permutation.fromIntArray v = none) ∧
    (v.Nodup → (∀ x ∈ v, PERMUTATION_INDEX ≤ x ∧ x ≤ MAX_ALLOWED_PERMUTATION_INDEX) →
      ∃ p, Permutation.fromIntArray v = some p ∧ p.length = v.length ∧
        ∀ i, i < v.length → p.at' i = some (v.getD i 0)) := by
  have hval : validatePermutationArray (v.map some) = true ↔
      v.Nodup ∧ ∀ x ∈ v, 0 ≤ x ∧ x ≤ 35 := by
    rw [validate_iff]
    constructor
    · rintro ⟨hnd, hr⟩
      exact ⟨(List.nodup_map_iff (Option.some_injective ℤ)).mp hnd,
        fun x hx => hr x (List.mem_map_of_mem _ hx)⟩
    · rintro ⟨hnd, hr⟩
      refine ⟨(List.nodup_map_iff (Option.some_injective ℤ)).mpr hnd, fun x hx => ?_⟩
      rw [List.mem_map] at hx
      obtain ⟨a, ha, hax⟩ := hx
      exact Option.some_injective _ hax ▸ hr a ha
  simp only [PERMUTATION_INDEX, MAX_ALLOWED_PERMUTATION_INDEX]
  constructor
  · intro h
    rw [Permutation.fromIntArray, mk?_eq_none, Bool.eq_false_iff]
    intro hv
    obtain ⟨hnd, hr⟩ := hval.mp hv
    rcases h with h | ⟨x, hx, hout⟩
    · exact h hnd
    · have := hr x hx
      omega
  · intro hnd hr
    have hv : validatePermutationArray (v.map some) = true :=
      hval.mpr ⟨hnd, fun x hx => hr x hx⟩
    refine ⟨⟨v.map some, hv⟩, ?_, ?_, ?_⟩
    · rw [Permutation.fromIntArray, mk?_eq_some]
      exact ⟨hv, rfl⟩
    · simp [Permutation.length]
    · intro i hi
      have hi' : i < (v.map some).length := by simpa using hi
      rw [Permutation.at', List.getD_eq_getElem _ _ hi']
      simp only [List.getElem_map]
      rw [List.getD_eq_getElem _ _ hi]

theorem c1_fromArray_contract_witness :
    (Permutation.fromIntArray [0, 0] = none) ∧
    ∃ p, Permutation.fromIntArray [2, 0, 1] = some p ∧
      p.length = ([2, 0, 1] : List ℤ).length ∧
      ∀ i, i < ([2, 0, 1] : List ℤ).length → p.at' i = some (([2, 0, 1] : List ℤ).getD i 0) :=
  ⟨(c1_fromArray_contract [0, 0]).1 (Or.inl (by decide)),
   (c1_fromArray_contract [2, 0, 1]).2 (by decide) (by decide)⟩

/-! ## C6: `equals` compares only index 0 -/

/-- C6 (the code contradicts the intended equality contract): `[0,1,2]` and
`[0,2,1]` differ at index 1 yet `equals` returns `true`, because the loop
bound `this.length` is the constructor function's parameter count, 1; a
length-1 and a length-2 permutation agreeing at index 0 also compare
`true`. -/
theorem c6_equals_only_checks_index_zero :
    (permId3.length = perm021.length ∧ permId3.at' 1 ≠ perm021.at' 1 ∧
      Permutation.equalsFn permId3 perm021 = true) ∧
    (permZero.length ≠ permId2.length ∧ Permutation.equalsFn permZero permId2 = true) := by
  decide

/-! ## C8: the character codec -/

/-- C8 counterexample: `-1` lies outside `[PERMUTATION_INDEX, 35]`, yet
`getChar(-1)` does not fail: the second branch only tests `i <= 35`, so
`-1` yields `fromCharCode(65 + (-1 - 10))`, the character `'6'`. -/
theorem c8_getChar_negative_counterexample :
    (-1 : ℤ) < PERMUTATION_INDEX ∧ getChar (-1) = some '6' := by decide

/-- C8 (amended): `getChar` and `parseChar` are mutually inverse between
`0..35` and the characters `'0'-'9'`, `'A'-'Z'`; `parseChar` fails exactly
outside those character ranges; `getChar` fails for `i > 35` — but not for
negative `i`, where it wrongly returns a character. -/
theorem c8_codec_contract :
    (∀ i : ℤ, 0 ≤ i → i ≤ 35 → ∃ c, getChar i = some c ∧ parseChar c = some i) ∧
    (∀ c : Char,
      (C0 ≤ (c.toNat : ℤ) ∧ (c.toNat : ℤ) ≤ C9) ∨
        (CA ≤ (c.toNat : ℤ) ∧ (c.toNat : ℤ) ≤ CZ) →
      ∃ i, parseChar c = some i ∧ getChar i = some c) ∧
    (∀ i : ℤ, MAX_ALLOWED_PERMUTATION_INDEX < i → getChar i = none) ∧
    (∀ c : Char,
      ¬((C0 ≤ (c.toNat : ℤ) ∧ (c.toNat : ℤ) ≤ C9) ∨
        (CA ≤ (c.toNat : ℤ) ∧ (c.toNat : ℤ) ≤ CZ)) →
      parseChar c = none) := by
  refine ⟨?_, ?_, ?_, ?_⟩
  · have base : ∀ k : ℕ, k < 36 → (getChar (k : ℤ)).isSome = true ∧
        parseChar ((getChar (k : ℤ)).getD ' ') = some (k : ℤ) := by decide
    intro i h0 h35
    have hk : i = ((i.toNat : ℕ) : ℤ) := (Int.toNat_of_nonneg h0).symm
    have hlt : i.toNat < 36 := by omega
    obtain ⟨hs, hp⟩ := base i.toNat hlt
    rw [hk]
    cases hc : getChar ((i.toNat : ℕ) : ℤ) with
    | none => rw [hc] at hs; cases hs
    | some c =>
      refine ⟨c, rfl, ?_⟩
      rw [hc] at hp
      simpa using hp
  · have base : ∀ k : ℕ, k < 91 →
        ((48 ≤ k ∧ k ≤ 57) ∨ (65 ≤ k ∧ k ≤ 90)) →
        (parseChar (Char.ofNat k)).isSome = true ∧
          getChar ((parseChar (Char.ofNat k)).getD 0) = some (Char.ofNat k) := by decide
    intro c hc
    have hrange : (48 ≤ c.toNat ∧ c.toNat ≤ 57) ∨ (65 ≤ c.toNat ∧ c.toNat ≤ 90) := by
      have e0 : C0 = 48 := by decide
      have e9 : C9 = 57 := by decide
      have eA : CA = 65 := by decide
      have eZ : CZ = 90 := by decide
      rw [e0, e9, eA, eZ] at hc
      omega
    have hlt : c.toNat < 91 := by omega
    obtain ⟨hs, hg⟩ := base c.toNat hlt hrange
    rw [Char.ofNat_toNat] at hs hg
    cases hp : parseChar c with
    | none => rw [hp] at hs; cases hs
    | some i =>
      refine ⟨i, rfl, ?_⟩
      rw [hp] at hg
      simpa using hg
  · intro i hi
    simp only [MAX_ALLOWED_PERMUTATION_INDEX] at hi
    rw [getChar, if_neg (by omega),
      if_neg (by simp only [MAX_ALLOWED_PERMUTATION_INDEX]; omega)]
  · intro c hc
    simp only [parseChar]
    rw [if_neg (fun h => hc (Or.inl h)), if_neg (fun h => hc (Or.inr h))]

theorem c8_codec_contract_witness :
    (∃ c, getChar 10 = some c ∧ parseChar c = some 10) ∧
    (∃ i, parseChar 'Z' = some i ∧ getChar i = some 'Z') ∧
    getChar 36 = none ∧ parseChar '(' = none :=
  ⟨c8_codec_contract.1 10 (by decide) (by decide),
   c8_codec_contract.2.1 'Z' (by decide),
   c8_codec_contract.2.2.1 36 (by decide),
   c8_codec_contract.2.2.2 '(' (by decide)⟩

/-! ## C9: the stored-value invariant -/

/-- C9 counterexample: `[1]` is accepted by construction although its value
1 is not below the length 1, so the stored values are not "a permutation of
0..n-1 shifted by the base offset". -/
theorem c9_bijection_counterexample :
    Permutation.fromIntArray [1] = some permB1 ∧
    ¬ (∀ x ∈ permB1.values, ∃ v : ℤ, x = some v ∧
        PERMUTATION_INDEX ≤ v ∧ v < PERMUTATION_INDEX + (permB1.length : ℤ)) := by
  constructor
  · decide
  · intro h
    obtain ⟨v, hv, h0, h1⟩ := h (some 1) (by simp [permB1])
    have hv1 : v = 1 := by simpa using hv.symm
    subst hv1
    exact absurd h1 (by decide)

/-- C9 (amended): every constructed `Permutation` has pairwise distinct
values, each within `[PERMUTATION_INDEX, MAX_ALLOWED_PERMUTATION_INDEX]`;
the bound `PERMUTATION_INDEX + n` is not enforced, so `at` need not be a
bijection of the domain. -/
theorem c9_stored_value_invariant (p : Permutation) :
    p.values.Nodup ∧ ∀ v : ℤ, some v ∈ p.values →
      PERMUTATION_INDEX ≤ v ∧ v ≤ MAX_ALLOWED_PERMUTATION_INDEX := by
  refine ⟨nodup_of_valid p, fun v hv => ?_⟩
  have := range_of_valid p v hv
  simp only [PERMUTATION_INDEX, MAX_ALLOWED_PERMUTATION_INDEX]
  omega

/-! ## C10: `fromString` on the empty string -/

/-- C10: `fromString("")` does not fail and does not produce an empty
permutation: `max_char` defaults to 0 and the inclusive construction loop
pads position 0 with the fixed point 0, giving the identity on `{0}`. -/
theorem c10_fromString_empty :
    fromString [] = some (some permZero) ∧ permZero.length = 1 ∧
    permZero.at' 0 = some 0 ∧ permZero.values = [some 0] := by decide

/-! ## Facts about proper (bijective) permutations -/

theorem permFn_spec (p : Permutation) (hp : p.Proper) {i : ℕ} (hi : i < p.values.length) :
    p.values.getD i none = some ((permFn p i : ℤ)) ∧ permFn p i < p.values.length := by
  have hgd : p.values.getD i none = p.values[i] := List.getD_eq_getElem _ _ hi
  have hslot := hp _ (List.getElem_mem hi)
  cases hx : p.values[i] with
  | none => rw [hx] at hslot; simp [properSlot] at hslot
  | some v =>
    rw [hx] at hslot
    simp only [properSlot, decide_eq_true_eq] at hslot
    obtain ⟨h0, hn⟩ := hslot
    have hfn : permFn p i = v.toNat := by simp only [permFn, hgd, hx]
    constructor
    · rw [hgd, hx, hfn, Int.toNat_of_nonneg h0]
    · rw [hfn]; omega

theorem permFn_out (p : Permutation) {i : ℕ} (hi : p.values.length ≤ i) : permFn p i = i := by
  simp only [permFn, List.getD_eq_default _ _ hi]

theorem permFn_lt (p : Permutation) (hp : p.Proper) {i : ℕ} (hi : i < p.values.length) :
    permFn p i < p.values.length :=
  (permFn_spec p hp hi).2

theorem permFn_inj (p : Permutation) (hp : p.Proper) : Function.Injective (permFn p) := by
  intro a b hab
  rcases Nat.lt_or_ge a p.values.length with ha | ha <;>
    rcases Nat.lt_or_ge b p.values.length with hb | hb
  · obtain ⟨hga, -⟩ := permFn_spec p hp ha
    obtain ⟨hgb, -⟩ := permFn_spec p hp hb
    have hv : p.values[a] = p.values[b] := by
      rw [← List.getD_eq_getElem _ none ha, ← List.getD_eq_getElem _ none hb, hga, hgb, hab]
    exact (List.Nodup.getElem_inj_iff (nodup_of_valid p)).mp hv
  · have := permFn_lt p hp ha
    rw [hab, permFn_out p hb] at this
    omega
  · have := permFn_lt p hp hb
    rw [← hab, permFn_out p ha] at this
    omega
  · rw [permFn_out p ha, permFn_out p hb] at hab
    exact hab

theorem permFn_iterate_lt (p : Permutation) (hp : p.Proper) {i : ℕ}
    (hi : i < p.values.length) (k : ℕ) : (permFn p)^[k] i < p.values.length := by
  induction k with
  | zero => simpa
  | succ k ih => rw [Function.iterate_succ_apply']; exact permFn_lt p hp ih

theorem permFn_cancel (p : Permutation) (hp : p.Proper) {i a b : ℕ} (hab : a ≤ b)
    (he : (permFn p)^[a] i = (permFn p)^[b] i) : (permFn p)^[b - a] i = i := by
  refine (permFn_inj p hp).iterate a ?_
  calc (permFn p)^[a] ((permFn p)^[b - a] i)
      = (permFn p)^[a + (b - a)] i := (Function.iterate_add_apply _ _ _ _).symm
    _ = (permFn p)^[b] i := by rw [show a + (b - a) = b from by omega]
    _ = (permFn p)^[a] i := he.symm

theorem exists_return (p : Permutation) (hp : p.Proper) {i : ℕ} (hi : i < p.values.length) :
    ∃ m, 0 < m ∧ m ≤ p.values.length ∧ (permFn p)^[m] i = i := by
  classical
  obtain ⟨a, ha, b, hb, hne, heq⟩ :=
    Finset.exists_ne_map_eq_of_card_lt_of_maps_to
      (s := Finset.range (p.values.length + 1)) (t := Finset.range p.values.length)
      (by simp) (fun k _ => Finset.mem_range.mpr (permFn_iterate_lt p hp hi k))
  rw [Finset.mem_range] at ha hb
  rcases Nat.lt_or_ge a b with h | h
  · exact ⟨b - a, by omega, by omega, permFn_cancel p hp (by omega) heq⟩
  · have h' : b < a := by omega
    exact ⟨a - b, by omega, by omega, permFn_cancel p hp (by omega) heq.symm⟩

theorem exists_least_return (p : Permutation) (hp : p.Proper) {i : ℕ}
    (hi : i < p.values.length) :
    ∃ m, 0 < m ∧ m ≤ p.values.length ∧ (permFn p)^[m] i = i ∧
      ∀ k, 0 < k → k < m → (permFn p)^[k] i ≠ i := by
  classical
  obtain ⟨m0, hm1, hm2, hm3⟩ := exists_return p hp hi
  have hex : ∃ m, 0 < m ∧ (permFn p)^[m] i = i := ⟨m0, hm1, hm3⟩
  refine ⟨Nat.find hex, (Nat.find_spec hex).1,
    le_trans (Nat.find_min' hex ⟨hm1, hm3⟩) hm2, (Nat.find_spec hex).2, ?_⟩
  intro k h0 hk hkeq
  exact absurd ⟨h0, hkeq⟩ (Nat.find_min hex hk)

theorem iterate_mod (f : ℕ → ℕ) {i m : ℕ} (hm : f^[m] i = i) (k : ℕ) :
    f^[k] i = f^[k % m] i := by
  have hq : ∀ q, f^[m * q] i = i := by
    intro q
    induction q with
    | zero => simp
    | succ q ih => rw [Nat.mul_succ, Function.iterate_add_apply, hm, ih]
  conv_lhs => rw [← Nat.mod_add_div k m, Function.iterate_add_apply, hq]

theorem reaches_self (f : ℕ → ℕ) (a : ℕ) : reaches f a a := ⟨0, rfl⟩

theorem reaches_trans {f : ℕ → ℕ} {a b c : ℕ} (h1 : reaches f a b) (h2 : reaches f b c) :
    reaches f a c := by
  obtain ⟨k, hk⟩ := h1
  obtain ⟨l, hl⟩ := h2
  exact ⟨l + k, by rw [Function.iterate_add_apply, hk, hl]⟩

theorem reaches_symm (p : Permutation) (hp : p.Proper) {a b : ℕ} (ha : a < p.values.length)
    (h : reaches (permFn p) a b) : reaches (permFn p) b a := by
  obtain ⟨k, rfl⟩ := h
  obtain ⟨m, hm0, -, hmi⟩ := exists_return p hp ha
  have hlt : k % m < m := Nat.mod_lt _ hm0
  refine ⟨m - k % m, ?_⟩
  rw [iterate_mod (permFn p) hmi k, ← Function.iterate_add_apply,
    show m - k % m + k % m = m from by omega, hmi]

theorem mem_orbitList {f : ℕ → ℕ} {i m x : ℕ} :
    x ∈ orbitList f i m ↔ ∃ k, k < m ∧ f^[k] i = x := by
  simp only [orbitList, List.mem_map, List.mem_range]

theorem reaches_iff_mem_orbit (p : Permutation) {i m x : ℕ}
    (hm0 : 0 < m) (hmi : (permFn p)^[m] i = i) :
    reaches (permFn p) i x ↔ x ∈ orbitList (permFn p) i m := by
  constructor
  · rintro ⟨k, rfl⟩
    exact mem_orbitList.mpr ⟨k % m, Nat.mod_lt _ hm0, (iterate_mod _ hmi k).symm⟩
  · intro h
    obtain ⟨k, -, hk⟩ := mem_orbitList.mp h
    exact ⟨k, hk⟩

theorem orbit_nonfixed (p : Permutation) (hp : p.Proper) {i x : ℕ}
    (hi : i < p.values.length) (hfi : permFn p i ≠ i) (hr : reaches (permFn p) i x) :
    permFn p x ≠ x := by
  intro hfx
  have hx : x < p.values.length := by
    obtain ⟨k, rfl⟩ := hr
    exact permFn_iterate_lt p hp hi k
  obtain ⟨t, ht⟩ := reaches_symm p hp hi hr
  have hconst : ∀ t, (permFn p)^[t] x = x := by
    intro t
    induction t with
    | zero => rfl
    | succ t ih => rw [Function.iterate_succ_apply', ih, hfx]
  rw [hconst t] at ht
  subst ht
  exact hfi hfx

theorem orbitList_nodup (p : Permutation) (hp : p.Proper) {i m : ℕ}
    (hleast : ∀ k, 0 < k → k < m → (permFn p)^[k] i ≠ i) :
    (orbitList (permFn p) i m).Nodup := by
  refine List.Nodup.map_on ?_ (List.nodup_range m)
  intro a ha b hb hab
  rw [List.mem_range] at ha hb
  by_contra hne
  rcases Nat.lt_or_ge a b with h | h
  · exact hleast (b - a) (by omega) (by omega) (permFn_cancel p hp (by omega) hab)
  · exact hleast (a - b) (by omega) (by omega) (permFn_cancel p hp (by omega) hab.symm)

theorem orbitList_cons (f : ℕ → ℕ) (i m : ℕ) (hm : 0 < m) :
    orbitList f i m = i :: (List.range (m - 1)).map (fun k => f^[1 + k] i) := by
  obtain ⟨m', rfl⟩ : ∃ m', m = m' + 1 := ⟨m - 1, by omega⟩
  rw [orbitList, List.range_succ_eq_map, List.map_cons, Function.iterate_zero_apply,
    List.map_map, Nat.add_sub_cancel]
  congr 1
  apply List.map_congr_left
  intro k _
  simp only [Function.comp_apply]
  rw [show Nat.succ k = 1 + k from by omega]

theorem followFrom_spec (p : Permutation) (hp : p.Proper) {i m : ℕ}
    (hi : i < p.values.length) (hmi : (permFn p)^[m] i = i)
    (hleast : ∀ k, 0 < k → k < m → (permFn p)^[k] i ≠ i) :
    ∀ d fuel t, d < fuel → 0 < t → t + d = m →
      followFrom p.values i fuel ((((permFn p)^[t] i : ℕ) : ℤ)) =
        some ((List.range d).map (fun k => (permFn p)^[t + k] i)) := by
  intro d
  induction d with
  | zero =>
    intro fuel t hfuel ht htm
    obtain ⟨fuel, rfl⟩ : ∃ g, fuel = g + 1 := ⟨fuel - 1, by omega⟩
    rw [Nat.add_zero] at htm
    subst htm
    rw [followFrom, if_pos (by rw [hmi])]
    simp
  | succ d ih =>
    intro fuel t hfuel ht htm
    obtain ⟨fuel, rfl⟩ : ∃ g, fuel = g + 1 := ⟨fuel - 1, by omega⟩
    have htm' : t < m := by omega
    have hne : (permFn p)^[t] i ≠ i := hleast t ht htm'
    have hlt : (permFn p)^[t] i < p.values.length := permFn_iterate_lt p hp hi t
    have hgd := (permFn_spec p hp hlt).1
    rw [followFrom, if_neg (fun h => hne (Int.natCast_inj.mp h)),
      if_pos ⟨Int.natCast_nonneg _, by exact_mod_cast hlt⟩,
      Int.toNat_natCast, hgd]
    have hrec := ih fuel (t + 1) (by omega) (by omega) (by omega)
    rw [Function.iterate_succ_apply' (permFn p) t i] at hrec
    show ((followFrom p.values i fuel ((permFn p ((permFn p)^[t] i) : ℕ) : ℤ)).map
      (fun rest => (permFn p)^[t] i :: rest)) = _
    rw [hrec]
    simp only [Option.map_some']
    congr 1
    rw [List.range_succ_eq_map, List.map_cons, List.map_map, Nat.add_zero]
    congr 1
    apply List.map_congr_left
    intro k _
    simp only [Function.comp_apply]
    rw [show t + Nat.succ k = t + 1 + k from by omega]

theorem getCyclesGo_spec (p : Permutation) (hp : p.Proper) :
    ∀ k d used, d + k = p.values.length →
      (∀ x, x ∈ used ↔ ∃ j, j < d ∧ permFn p j ≠ j ∧ reaches (permFn p) j x) →
      ∃ cs, getCyclesGo p.values (List.range' d k) used = some cs ∧
        (∀ c ∈ cs, ∃ i m, c = orbitList (permFn p) i m ∧ 0 < m ∧ d ≤ i ∧
          i < p.values.length ∧ permFn p i ≠ i ∧ (permFn p)^[m] i = i ∧
          (∀ k', 0 < k' → k' < m → (permFn p)^[k'] i ≠ i) ∧ (∀ x ∈ c, i ≤ x)) ∧
        (cs.map (fun c => c.headD 0)).Chain' (· < ·) ∧
        (∀ c ∈ cs, d ≤ c.headD 0) ∧
        cs.flatten.Nodup ∧
        (∀ x ∈ cs.flatten, x ∉ used) ∧
        (∀ x, x < p.values.length → permFn p x ≠ x → x ∉ used → x ∈ cs.flatten) := by
  intro k
  induction k with
  | zero =>
    intro d used hdk hinv
    refine ⟨[], by rw [List.range'_zero]; rfl, ?_, by simp, ?_, by simp, ?_, ?_⟩
    · intro c hc; cases hc
    · intro c hc; cases hc
    · intro x hx; simp at hx
    · intro x hxlt hxnf hxused
      exact absurd ((hinv x).mpr ⟨x, by omega, hxnf, reaches_self _ x⟩) hxused
  | succ k ih =>
    intro d used hdk hinv
    have hd : d < p.values.length := by omega
    have hgd := (permFn_spec p hp hd).1
    rw [List.range'_succ]
    by_cases hfd : permFn p d = d
    · -- `d` is a fixed point: the loop skips it
      have hcond : ¬(p.values.getD d none ≠ some (d : ℤ) ∧ d ∉ used) := by
        rintro ⟨hne, -⟩
        exact hne (by rw [hgd, hfd])
      have hinv' : ∀ x, x ∈ used ↔
          ∃ j, j < d + 1 ∧ permFn p j ≠ j ∧ reaches (permFn p) j x := by
        intro x
        rw [hinv x]
        constructor
        · rintro ⟨j, hj, hnf, hr⟩; exact ⟨j, by omega, hnf, hr⟩
        · rintro ⟨j, hj, hnf, hr⟩
          rcases Nat.lt_or_ge j d with h | h
          · exact ⟨j, h, hnf, hr⟩
          · have hjd : j = d := by omega
            subst hjd
            exact absurd hfd hnf
      obtain ⟨cs, hcs, hP1, hP2, hP2b, hP3, hP3b, hP3c⟩ := ih (d + 1) used (by omega) hinv'
      refine ⟨cs, ?_, ?_, hP2, ?_, hP3, hP3b, hP3c⟩
      · simp only [getCyclesGo, if_neg hcond]
        exact hcs
      · intro c hc
        obtain ⟨i, m, h1, h2, h3, h4, h5, h6, h7, h8⟩ := hP1 c hc
        exact ⟨i, m, h1, h2, by omega, h4, h5, h6, h7, h8⟩
      · intro c hc
        have := hP2b c hc
        omega
    · by_cases hdu : d ∈ used
      · -- `d` already belongs to an emitted cycle: the loop skips it
        have hcond : ¬(p.values.getD d none ≠ some (d : ℤ) ∧ d ∉ used) := by
          rintro ⟨-, hnu⟩
          exact hnu hdu
        have hinv' : ∀ x, x ∈ used ↔
            ∃ j, j < d + 1 ∧ permFn p j ≠ j ∧ reaches (permFn p) j x := by
          intro x
          constructor
          · intro hx
            obtain ⟨j, hj, hnf, hr⟩ := (hinv x).mp hx
            exact ⟨j, by omega, hnf, hr⟩
          · rintro ⟨j, hj, hnf, hr⟩
            rcases Nat.lt_or_ge j d with h | h
            · exact (hinv x).mpr ⟨j, h, hnf, hr⟩
            · have hjd : j = d := by omega
              rw [hjd] at hr
              obtain ⟨j0, hj0, hnf0, hr0⟩ := (hinv d).mp hdu
              exact (hinv x).mpr ⟨j0, hj0, hnf0, reaches_trans hr0 hr⟩
        obtain ⟨cs, hcs, hP1, hP2, hP2b, hP3, hP3b, hP3c⟩ := ih (d + 1) used (by omega) hinv'
        refine ⟨cs, ?_, ?_, hP2, ?_, hP3, hP3b, hP3c⟩
        · simp only [getCyclesGo, if_neg hcond]
          exact hcs
        · intro c hc
          obtain ⟨i, m, h1, h2, h3, h4, h5, h6, h7, h8⟩ := hP1 c hc
          exact ⟨i, m, h1, h2, by omega, h4, h5, h6, h7, h8⟩
        · intro c hc
          have := hP2b c hc
          omega
      · -- a new cycle starts at `d`
        have hcond : p.values.getD d none ≠ some (d : ℤ) ∧ d ∉ used := by
          refine ⟨?_, hdu⟩
          rw [hgd]
          intro h
          exact hfd (Int.natCast_inj.mp (Option.some_injective _ h))
        obtain ⟨m, hm0, hmn, hmi, hleast⟩ := exists_least_return p hp hd
        have hfollow := followFrom_spec p hp hd hmi hleast (m - 1)
          (p.values.length + 1) 1 (by omega) (by omega) (by omega)
        rw [Function.iterate_one] at hfollow
        set rest := (List.range (m - 1)).map (fun k' => (permFn p)^[1 + k'] d) with hrest
        have hcycle : d :: rest = orbitList (permFn p) d m := by
          rw [orbitList_cons (permFn p) d m hm0, hrest]
        have horbit : ∀ x, x ∈ d :: rest ↔ reaches (permFn p) d x := by
          intro x
          rw [hcycle]
          exact (reaches_iff_mem_orbit p hm0 hmi).symm
        have hinv'' : ∀ x, x ∈ used ++ d :: rest ↔
            ∃ j, j < d + 1 ∧ permFn p j ≠ j ∧ reaches (permFn p) j x := by
          intro x
          rw [List.mem_append, hinv x, horbit x]
          constructor
          · rintro (⟨j, hj, hnf, hr⟩ | hr)
            · exact ⟨j, by omega, hnf, hr⟩
            · exact ⟨d, by omega, hfd, hr⟩
          · rintro ⟨j, hj, hnf, hr⟩
            rcases Nat.lt_or_ge j d with h | h
            · exact Or.inl ⟨j, h, hnf, hr⟩
            · have hjd : j = d := by omega
              subst hjd
              exact Or.inr hr
        obtain ⟨cs', hcs', hQ1, hQ2, hQ2b, hQ3, hQ3b, hQ3c⟩ :=
          ih (d + 1) (used ++ d :: rest) (by omega) hinv''
        have hxlt : ∀ x, x ∈ d :: rest → x < p.values.length := by
          intro x hx
          obtain ⟨kk, hkk⟩ := (horbit x).mp hx
          exact hkk ▸ permFn_iterate_lt p hp hd kk
        refine ⟨(d :: rest) :: cs', ?_, ?_, ?_, ?_, ?_, ?_, ?_⟩
        · simp only [getCyclesGo]
          rw [if_pos hcond, hgd]
          simp only [hfollow, hcs', Option.map_some']
        · intro c hc
          rcases List.mem_cons.mp hc with rfl | hc
          · refine ⟨d, m, hcycle, hm0, le_refl d, hd, hfd, hmi, hleast, ?_⟩
            intro x hx
            by_contra hxd
            push_neg at hxd
            have hrdx : reaches (permFn p) d x := (horbit x).mp hx
            have hnfx : permFn p x ≠ x := orbit_nonfixed p hp hd hfd hrdx
            have hrxd : reaches (permFn p) x d := reaches_symm p hp hd hrdx
            exact hdu ((hinv d).mpr ⟨x, hxd, hnfx, hrxd⟩)
          · obtain ⟨i, m', h1, h2, h3, h4, h5, h6, h7, h8⟩ := hQ1 c hc
            exact ⟨i, m', h1, h2, by omega, h4, h5, h6, h7, h8⟩
        · rw [List.map_cons, List.chain'_cons']
          refine ⟨?_, hQ2⟩
          intro y hy
          cases cs' with
          | nil => simp at hy
          | cons c0 cs'' =>
            simp only [List.map_cons, List.head?_cons, Option.mem_def, Option.some_inj] at hy
            have := hQ2b c0 (List.mem_cons_self c0 cs'')
            rw [List.headD_cons] at *
            omega
        · intro c hc
          rcases List.mem_cons.mp hc with rfl | hc
          · rw [List.headD_cons]
          · have := hQ2b c hc
            omega
        · rw [List.flatten_cons, List.nodup_append]
          refine ⟨?_, hQ3, ?_⟩
          · rw [hcycle]
            exact orbitList_nodup p hp hleast
          · intro x hxc hxf
            exact hQ3b x hxf (List.mem_append.mpr (Or.inr hxc))
        · intro x hx
          rw [List.flatten_cons, List.mem_append] at hx
          rcases hx with hxc | hxf
          · intro hxu
            obtain ⟨j, hj, hnf, hrjx⟩ := (hinv x).mp hxu
            have hrdx : reaches (permFn p) d x := (horbit x).mp hxc
            have hrxd : reaches (permFn p) x d := reaches_symm p hp hd hrdx
            exact hdu ((hinv d).mpr ⟨j, hj, hnf, reaches_trans hrjx hrxd⟩)
          · intro hxu
            exact hQ3b x hxf (List.mem_append.mpr (Or.inl hxu))
        · intro x hxn hxnf hxu
          rw [List.flatten_cons, List.mem_append]
          by_cases hxc : x ∈ d :: rest
          · exact Or.inl hxc
          · refine Or.inr (hQ3c x hxn hxnf ?_)
            intro hx'
            rcases List.mem_append.mp hx' with h | h
            · exact hxu h
            · exact hxc h

/-! ## C2: the cycle decomposition -/

/-- C2 counterexample: `[1]` is validly constructed
(`fromArray([1])` succeeds), but its `.cycles` does not exist: the inner
`while` loop follows `j = perm[j]` from `j = 1`, which reads the undefined
slot `perm[1]`, after which `j` is `undefined` forever and the loop never
terminates (modelled as `none`). -/
theorem c2_cycles_divergence_counterexample :
    Permutation.fromIntArray [1] = some permB1 ∧ permB1.cycles = none := by decide

/-- C2 (amended): for every validly constructed permutation whose stored
values form a true bijection of the index range, `.cycles` is the
disjoint-cycle decomposition: cycles contain only non-fixed in-range
indices, every non-fixed index appears in exactly one cycle (the
concatenation of all cycles is duplicate-free and covers them), each cycle
is the orbit of its smallest member in application order, and cycles are
ordered by smallest member ascending; `[1,2,0]` yields `[[0,1,2]]` and the
identity yields `[]`. -/
theorem c2_cycles_decomposition (p : Permutation) (hp : p.Proper) :
    (∃ cs, p.cycles = some cs ∧
      (∀ c ∈ cs, ∀ x ∈ c, x < p.length ∧ permFn p x ≠ x) ∧
      (cs.flatten.Nodup ∧
        ∀ x, x < p.length → permFn p x ≠ x → x ∈ cs.flatten) ∧
      (∀ c ∈ cs, ∃ i m, c = orbitList (permFn p) i m ∧ 0 < m ∧
        (permFn p)^[m] i = i ∧ (∀ k, 0 < k → k < m → (permFn p)^[k] i ≠ i) ∧
        (∀ x ∈ c, i ≤ x)) ∧
      (cs.map (fun c => c.headD 0)).Sorted (· < ·)) ∧
    perm120.cycles = some [[0, 1, 2]] ∧ permId3.cycles = some [] := by
  refine ⟨?_, by decide, by decide⟩
  obtain ⟨cs, hcs, hP1, hP2, hP2b, hP3, hP3b, hP3c⟩ :=
    getCyclesGo_spec p hp p.values.length 0 [] (by omega) (by intro x; simp)
  refine ⟨cs, ?_, ?_, ⟨hP3, ?_⟩, ?_, ?_⟩
  · rw [Permutation.cycles, getCycles, List.range_eq_range']
    exact hcs
  · intro c hc x hx
    obtain ⟨i, m, hceq, hm0, -, hi, hnfi, hmi, hleast, -⟩ := hP1 c hc
    have hr : reaches (permFn p) i x :=
      (reaches_iff_mem_orbit p hm0 hmi).mpr (hceq ▸ hx)
    constructor
    · obtain ⟨kk, hkk⟩ := hr
      exact hkk ▸ permFn_iterate_lt p hp hi kk
    · exact orbit_nonfixed p hp hi hnfi hr
  · intro x hx hnf
    exact hP3c x hx hnf (by simp)
  · intro c hc
    obtain ⟨i, m, hceq, hm0, -, -, -, hmi, hleast, hmin⟩ := hP1 c hc
    exact ⟨i, m, hceq, hm0, hmi, hleast, hmin⟩
  · exact List.chain'_iff_pairwise.mp hP2

theorem c2_cycles_decomposition_witness :
    perm120.Proper ∧ perm120.cycles = some [[0, 1, 2]] ∧ permId3.cycles = some [] :=
  ⟨by decide, (c2_cycles_decomposition perm120 (by decide)).2.1,
    (c2_cycles_decomposition perm120 (by decide)).2.2⟩

theorem getD_map_range {α : Type} (f : ℕ → α) (n : ℕ) (d : α) {i : ℕ} (hi : i < n) :
    ((List.range n).map f).getD i d = f i := by
  have hl : i < ((List.range n).map f).length := by
    rw [List.length_map, List.length_range]
    exact hi
  rw [List.getD_eq_getElem _ _ hl]
  simp only [List.getElem_map, List.getElem_range]

/-! ## C5: composition -/

/-- C5 counterexample: `[0,1]` and `[2,3]` are both validly constructed and
have equal lengths, yet `compose` yields no result: the composed array is
`[this[2], this[3]] = [undefined, undefined]`, which has duplicates and is
rejected by validation. -/
theorem c5_compose_counterexample :
    permId2.length = perm23.length ∧ permId2.compose perm23 = none := by decide

/-- C5 (amended): `compose` fails whenever the lengths differ; when the
lengths are equal and both permutations moreover store true bijections of
the index range, it returns a fresh permutation of the same length with
`r(i) = this(theta(i))`, and the composite passes validation.  (For merely
validly constructed inputs of equal length the construction can fail, see
the counterexample.) -/
theorem c5_compose_contract (p theta : Permutation) :
    (theta.length ≠ p.length → p.compose theta = none) ∧
    (theta.length = p.length → p.Proper → theta.Proper →
      ∃ r, p.compose theta = some r ∧ r.length = p.length ∧
        ∀ i, i < p.length → permFn theta i < p.length ∧
          r.at' i = p.at' (permFn theta i)) := by
  constructor
  · intro hne
    rw [Permutation.compose, if_pos hne]
  · intro hlen hp hth
    have hn : theta.values.length = p.values.length := hlen
    have hpt : ∀ i, i < p.values.length →
        (match theta.values.getD i none with
          | some v => if 0 ≤ v then p.values.getD v.toNat none else none
          | none => none) = some ((permFn p (permFn theta i) : ℤ)) ∧
        permFn theta i < p.values.length := by
      intro i hi
      have hti : i < theta.values.length := by omega
      have h1 := (permFn_spec theta hth hti).1
      have h2 : permFn theta i < p.values.length := by
        have := (permFn_spec theta hth hti).2
        omega
      simp only [h1]
      rw [if_pos (Int.natCast_nonneg _), Int.toNat_natCast]
      exact ⟨(permFn_spec p hp h2).1, h2⟩
    set arr := (List.range p.length).map (fun i =>
      match theta.values.getD i none with
      | some v => if 0 ≤ v then p.values.getD v.toNat none else none
      | none => none) with harr
    have hlenarr : arr.length = p.values.length := by
      rw [harr, List.length_map, List.length_range]
      rfl
    have hget : ∀ i, i < p.values.length →
        arr.getD i none = some ((permFn p (permFn theta i) : ℤ)) := by
      intro i hi
      rw [harr, getD_map_range _ _ none (show i < p.length from hi)]
      exact (hpt i hi).1
    have hnodup : arr.Nodup := by
      rw [harr]
      refine List.Nodup.map_on ?_ (List.nodup_range _)
      intro a ha b hb hab
      rw [List.mem_range] at ha hb
      have ha' : a < p.values.length := ha
      have hb' : b < p.values.length := hb
      have hab2 : some ((permFn p (permFn theta a) : ℤ)) =
          some ((permFn p (permFn theta b) : ℤ)) := by
        rw [← (hpt a ha').1, ← (hpt b hb').1]
        exact hab
      have h3 := Int.natCast_inj.mp (Option.some_injective _ hab2)
      exact permFn_inj theta hth (permFn_inj p hp h3)
    have hrange : ∀ v : ℤ, some v ∈ arr → 0 ≤ v ∧ v ≤ 35 := by
      intro v hv
      rw [harr, List.mem_map] at hv
      obtain ⟨i, hi, hieq⟩ := hv
      rw [List.mem_range] at hi
      have hi' : i < p.values.length := hi
      have heq : some ((permFn p (permFn theta i) : ℤ)) = some v := by
        rw [← (hpt i hi').1]
        exact hieq
      have hmem : some ((permFn p (permFn theta i) : ℤ)) ∈ p.values := by
        have h2 := (hpt i hi').2
        rw [← (permFn_spec p hp h2).1, List.getD_eq_getElem _ none h2]
        exact List.getElem_mem h2
      rw [← Option.some_injective _ heq]
      exact range_of_valid p _ hmem
    have hval : validatePermutationArray arr = true := validate_iff.mpr ⟨hnodup, hrange⟩
    refine ⟨⟨arr, hval⟩, ?_, ?_, ?_⟩
    · rw [Permutation.compose, if_neg (fun h => h hlen)]
      exact mk?_eq_some.mpr ⟨hval, rfl⟩
    · show arr.length = p.length
      rw [hlenarr]
      rfl
    · intro i hi
      have hi' : i < p.values.length := hi
      refine ⟨(hpt i hi').2, ?_⟩
      show arr.getD i none = p.at' (permFn theta i)
      rw [hget i hi', Permutation.at', (permFn_spec p hp (hpt i hi').2).1]

theorem c5_compose_contract_witness :
    (permZero.compose permId2 = none) ∧
    ∃ r, perm120.compose perm120 = some r ∧ r.length = perm120.length ∧
      ∀ i, i < perm120.length → permFn perm120 i < perm120.length ∧
        r.at' i = perm120.at' (permFn perm120 i) :=
  ⟨(c5_compose_contract permZero permId2).1 (by decide),
   (c5_compose_contract perm120 perm120).2 (by decide) (by decide) (by decide)⟩

/-! ## Codec helper lemmas -/

theorem filterMap_eq_map_getD {α β : Type} (g : α → Option β) (d : β) :
    ∀ l : List α, (∀ x ∈ l, (g x).isSome = true) →
      l.filterMap g = l.map (fun x => (g x).getD d) := by
  intro l
  induction l with
  | nil => intro _; rfl
  | cons a l ih =>
    intro h
    have ha := h a (List.mem_cons_self a l)
    cases hga : g a with
    | none => rw [hga] at ha; cases ha
    | some b =>
      rw [List.filterMap_cons_some hga, List.map_cons, hga, Option.getD_some,
        ih (fun x hx => h x (List.mem_cons_of_mem a hx))]

theorem getChar_isSome {v : ℤ} (h0 : 0 ≤ v) (h35 : v ≤ 35) : (getChar v).isSome = true := by
  rw [getChar]
  split
  · rfl
  · rw [if_pos (by simp only [MAX_ALLOWED_PERMUTATION_INDEX]; omega)]
    rfl

theorem parseChar_getChar {v : ℤ} (h0 : 0 ≤ v) (h35 : v ≤ 35) {c : Char}
    (hc : getChar v = some c) : parseChar c = some v := by
  have base : ∀ k : ℕ, k < 36 → parseChar ((getChar (k : ℤ)).getD ' ') = some (k : ℤ) := by
    decide
  have hv : v = ((v.toNat : ℕ) : ℤ) := (Int.toNat_of_nonneg h0).symm
  have hbk := base v.toNat (by omega)
  rw [← hv, hc, Option.getD_some] at hbk
  exact hbk

theorem getChar_ne_paren {v : ℤ} (h0 : 0 ≤ v) (h35 : v ≤ 35) {c : Char}
    (hc : getChar v = some c) : c ≠ '(' := by
  have base : ∀ k : ℕ, k < 36 → (getChar ((k : ℕ) : ℤ)).getD ' ' ≠ '(' := by decide
  intro hcp
  have hv : v = ((v.toNat : ℕ) : ℤ) := (Int.toNat_of_nonneg h0).symm
  have h2 := base v.toNat (by omega)
  rw [← hv, hc, Option.getD_some] at h2
  exact h2 hcp

theorem permFn_le35 (p : Permutation) (hp : p.Proper) {j : ℕ} (hj : j < p.values.length) :
    ((permFn p j : ℕ) : ℤ) ≤ 35 := by
  have hmem : some ((permFn p j : ℤ)) ∈ p.values := by
    rw [← (permFn_spec p hp hj).1, List.getD_eq_getElem _ none hj]
    exact List.getElem_mem hj
  exact (range_of_valid p _ hmem).2

theorem le_foldl_max (l : List ℤ) : ∀ a : ℤ,
    a ≤ l.foldl max a ∧ ∀ x ∈ l, x ≤ l.foldl max a := by
  induction l with
  | nil => intro a; exact ⟨le_refl a, by simp⟩
  | cons y l ih =>
    intro a
    rw [List.foldl_cons]
    obtain ⟨h1, h2⟩ := ih (max a y)
    refine ⟨le_trans (le_max_left a y) h1, ?_⟩
    intro x hx
    rcases List.mem_cons.mp hx with rfl | hx
    · exact le_trans (le_max_right a x) h1
    · exact h2 x hx

theorem foldl_max_mem (l : List ℤ) : ∀ a : ℤ, l.foldl max a = a ∨ l.foldl max a ∈ l := by
  induction l with
  | nil => intro a; exact Or.inl rfl
  | cons y l ih =>
    intro a
    rw [List.foldl_cons]
    rcases le_or_lt y a with hy | hy
    · rw [max_eq_left hy]
      rcases ih a with h | h
      · exact Or.inl h
      · exact Or.inr (List.mem_cons_of_mem y h)
    · rw [max_eq_right (le_of_lt hy)]
      rcases ih y with h | h
      · rw [h]
        exact Or.inr (List.mem_cons_self y l)
      · exact Or.inr (List.mem_cons_of_mem y h)

theorem permFn_surj (p : Permutation) (hp : p.Proper) {y : ℕ}
    (hy : y < p.values.length) : ∃ j, j < p.values.length ∧ permFn p j = y := by
  classical
  have himg : Finset.image (permFn p) (Finset.range p.values.length) =
      Finset.range p.values.length := by
    apply Finset.eq_of_subset_of_card_le
    · intro z hz
      rw [Finset.mem_image] at hz
      obtain ⟨j, hj, rfl⟩ := hz
      rw [Finset.mem_range] at hj ⊢
      exact permFn_lt p hp hj
    · rw [Finset.card_image_of_injOn (Set.injOn_of_injective (permFn_inj p hp))]
  have hmem : y ∈ Finset.image (permFn p) (Finset.range p.values.length) := by
    rw [himg, Finset.mem_range]
    exact hy
  rw [Finset.mem_image] at hmem
  obtain ⟨j, hj, hjy⟩ := hmem
  rw [Finset.mem_range] at hj
  exact ⟨j, hj, hjy⟩

/-- The stored array of a proper permutation, described pointwise. -/
theorem values_eq_map (p : Permutation) (hp : p.Proper) :
    p.values = (List.range p.values.length).map (fun j => some ((permFn p j : ℤ))) := by
  apply List.ext_getElem
  · rw [List.length_map, List.length_range]
  · intro j h1 h2
    simp only [List.getElem_map, List.getElem_range]
    rw [← List.getD_eq_getElem _ none h1]
    exact (permFn_spec p hp h1).1

theorem toStr_proper (p : Permutation) (hp : p.Proper) :
    p.toStr = (List.range p.values.length).map
      (fun j => (getChar ((permFn p j : ℤ))).getD ' ') := by
  rw [Permutation.toStr, values_eq_map p hp, List.filterMap_map]
  rw [filterMap_eq_map_getD _ ' ']
  · simp only [List.length_map, List.length_range]
    apply List.map_congr_left
    intro j _
    rfl
  · intro j hj
    rw [List.mem_range] at hj
    exact getChar_isSome (Int.natCast_nonneg _) (permFn_le35 p hp hj)

theorem intRangeTo_natCast (m : ℕ) :
    intRangeTo ((m : ℕ) : ℤ) = (List.range (m + 1)).map (fun k : ℕ => (k : ℤ)) := by
  rw [intRangeTo, show (((m : ℕ) : ℤ) + 1).toNat = m + 1 from by omega]

theorem parse_toStr_char (p : Permutation) (hp : p.Proper) {j : ℕ}
    (hj : j < p.values.length) :
    parseChar ((getChar ((permFn p j : ℤ))).getD ' ') = some ((permFn p j : ℤ)) := by
  have hs := getChar_isSome (Int.natCast_nonneg (permFn p j)) (permFn_le35 p hp hj)
  cases hc : getChar ((permFn p j : ℤ)) with
  | none => rw [hc] at hs; cases hs
  | some c =>
    rw [Option.getD_some]
    exact parseChar_getChar (Int.natCast_nonneg _) (permFn_le35 p hp hj) hc

theorem maxCharFold_toStr (p : Permutation) (hp : p.Proper) (hn : 0 < p.values.length) :
    maxCharFold p.toStr = ((p.values.length - 1 : ℕ) : ℤ) := by
  rw [toStr_proper p hp, maxCharFold, List.foldl_map]
  rw [List.foldl_ext _ (fun m j => max m ((permFn p j : ℤ))) 0 ?_]
  · rw [← List.foldl_map (fun j => ((permFn p j : ℕ) : ℤ)) max]
    set L := (List.range p.values.length).map (fun j => ((permFn p j : ℕ) : ℤ)) with hL
    have hub := (le_foldl_max L 0).2
    have hin : ((p.values.length - 1 : ℕ) : ℤ) ∈ L := by
      obtain ⟨j, hj, hjy⟩ := permFn_surj p hp (show p.values.length - 1 < p.values.length by omega)
      rw [hL, List.mem_map]
      exact ⟨j, List.mem_range.mpr hj, by rw [hjy]⟩
    have h1 := hub _ hin
    have h2 : L.foldl max 0 ≤ ((p.values.length - 1 : ℕ) : ℤ) := by
      rcases foldl_max_mem L 0 with h | h
      · rw [h]
        exact Int.natCast_nonneg _
      · rw [hL, List.mem_map] at h
        obtain ⟨j, hj, hjeq⟩ := h
        rw [List.mem_range] at hj
        have := permFn_lt p hp hj
        rw [← hjeq]
        exact_mod_cast by omega
    omega
  · intro m j hj
    rw [List.mem_range] at hj
    rw [charScanStep, parse_toStr_char p hp hj]
    show (if m < ((permFn p j : ℕ) : ℤ) then ((permFn p j : ℕ) : ℤ) else m) =
      max m ((permFn p j : ℕ) : ℤ)
    rcases lt_or_le m ((permFn p j : ℤ)) with h | h
    · rw [if_pos h, max_eq_right (le_of_lt h)]
    · rw [if_neg (not_lt.mpr h), max_eq_left h]

/-! ## C3: flat-string round trip -/

/-- C3 counterexample: `[1]` is validly constructed, `toString` gives
`"1"`, but `fromString("1")` computes `max_char = 1` and builds the array
`[1, 1]`, which has duplicates — the round trip fails to produce any
permutation. -/
theorem c3_roundtrip_counterexample :
    Permutation.fromIntArray [1] = some permB1 ∧
    fromString permB1.toStr = some none := by decide

/-- C3 (amended): for every validly constructed nonempty permutation whose
stored values form a true bijection of the index range,
`fromString(p.toString())` succeeds and yields a permutation equal to `p` —
same length, same image everywhere.  (Without bijectivity the round trip
can fail, see the counterexample; the empty permutation instead
round-trips to the length-1 identity, see the theorem on the empty
string.) -/
theorem c3_roundtrip (p : Permutation) (hp : p.Proper) (hn : 0 < p.length) :
    ∃ q, fromString p.toStr = some (some q) ∧ q.length = p.length ∧
      ∀ i, q.at' i = p.at' i := by
  have hn' : 0 < p.values.length := hn
  have hslen : p.toStr.length = p.values.length := by
    rw [toStr_proper p hp, List.length_map, List.length_range]
  have hnoparen : ¬ p.toStr.contains '(' = true := by
    intro hcont
    have hmem : '(' ∈ p.toStr := List.elem_iff.mp hcont
    rw [toStr_proper p hp, List.mem_map] at hmem
    obtain ⟨j, hj, hjeq⟩ := hmem
    rw [List.mem_range] at hj
    have hs := getChar_isSome (Int.natCast_nonneg (permFn p j)) (permFn_le35 p hp hj)
    cases hc : getChar ((permFn p j : ℤ)) with
    | none => rw [hc] at hs; cases hs
    | some c =>
      rw [hc, Option.getD_some] at hjeq
      exact getChar_ne_paren (Int.natCast_nonneg _) (permFn_le35 p hp hj) hc hjeq
  have harr : ((List.range (p.values.length - 1 + 1)).map (fun k : ℕ => (k : ℤ))).map
      (fun j => if j < (p.toStr.length : ℤ) then parseChar (p.toStr.getD j.toNat ' ')
        else some j) = p.values := by
    rw [show p.values.length - 1 + 1 = p.values.length from by omega]
    rw [List.map_map]
    conv_rhs => rw [values_eq_map p hp]
    apply List.map_congr_left
    intro k hk
    rw [List.mem_range] at hk
    simp only [Function.comp_apply]
    rw [if_pos (by rw [hslen]; exact_mod_cast hk), Int.toNat_natCast]
    rw [toStr_proper p hp, getD_map_range _ _ ' ' hk]
    exact parse_toStr_char p hp hk
  refine ⟨p, ?_, rfl, fun i => rfl⟩
  rw [fromString, if_neg hnoparen, maxCharFold_toStr p hp hn']
  dsimp only
  rw [intRangeTo_natCast, harr]
  exact congrArg some (mk?_eq_some.mpr ⟨p.valid, rfl⟩)

theorem c3_roundtrip_witness :
    perm120.Proper ∧ 0 < perm120.length ∧
    ∃ q, fromString perm120.toStr = some (some q) ∧ q.length = perm120.length ∧
      ∀ i, q.at' i = perm120.at' i :=
  ⟨by decide, by decide, c3_roundtrip perm120 (by decide) (by decide)⟩

/-! ## C7: rendering the cycle string -/

theorem foldl_append_eq_flatten {α β : Type} (g : α → List β) :
    ∀ (l : List α) (acc : List β),
      l.foldl (fun a c => a ++ g c) acc = acc ++ (l.map g).flatten := by
  intro l
  induction l with
  | nil => intro acc; simp
  | cons c l ih =>
    intro acc
    rw [List.foldl_cons, List.map_cons, List.flatten_cons, ih, List.append_assoc]

theorem decimal_eq_singleChar : ∀ c : List ℕ, (∀ x ∈ c, x ≤ 9) →
    (c.map (fun k => (Nat.repr k).toList)).flatten =
      c.filterMap (fun k => getChar ((k : ℕ) : ℤ)) := by
  have digit : ∀ k : ℕ, k < 10 → (Nat.repr k).toList =
      (getChar ((k : ℕ) : ℤ)).elim [] (fun ch => [ch]) := by decide
  intro c
  induction c with
  | nil => intro _; rfl
  | cons k c ih =>
    intro h
    have hk := h k (List.mem_cons_self k c)
    have hd := digit k (by omega)
    rw [List.map_cons, List.flatten_cons, ih (fun x hx => h x (List.mem_cons_of_mem k hx))]
    cases hg : getChar ((k : ℕ) : ℤ) with
    | none =>
      have hs := getChar_isSome (Int.natCast_nonneg k) (by exact_mod_cast by omega : ((k:ℕ):ℤ) ≤ 35)
      rw [hg] at hs
      cases hs
    | some ch =>
      rw [hg] at hd
      rw [hd, @List.filterMap_cons_some ℕ Char (fun k : ℕ => getChar ((k : ℕ) : ℤ)) k c ch hg]
      rfl

/-- C7 counterexample: the permutation swapping 10 and 11 has the single
cycle `[10, 11]`, rendered by `join('')` in decimal as `"(1011)"` — not as
the single-character encoding `"(AB)"` the claim prescribes. -/
theorem c7_toCycleString_counterexample :
    permSwap1011.cycles = some [[10, 11]] ∧
    permSwap1011.toCycleString = some ('(' :: '1' :: '0' :: '1' :: '1' :: [')']) ∧
    permSwap1011.toCycleString ≠ some (cycleStringClaim [[10, 11]]) := by decide

/-- C7 (amended): `toCycleString` concatenates, per cycle in decomposition
order, the parenthesized *decimal* renderings of the cycle's elements
(`join('')` on numbers); this coincides with the claimed single-character
encodings exactly when every element is at most 9; a permutation with no
non-trivial cycle renders as the empty string. -/
theorem c7_toCycleString_rendering (p : Permutation) :
    ∀ cs, p.cycles = some cs →
      p.toCycleString =
        some ((cs.map (fun c =>
          '(' :: (c.map (fun k => (Nat.repr k).toList)).flatten ++ [')'])).flatten) ∧
      ((∀ c ∈ cs, ∀ x ∈ c, x ≤ 9) →
        p.toCycleString = some (cycleStringClaim cs)) ∧
      (cs = [] → p.toCycleString = some []) := by
  intro cs hcs
  have hren : p.toCycleString =
      some ((cs.map (fun c =>
        '(' :: (c.map (fun k => (Nat.repr k).toList)).flatten ++ [')'])).flatten) := by
    rw [Permutation.toCycleString, hcs, Option.map_some']
    congr 1
    rw [foldl_append_eq_flatten (fun c =>
      '(' :: (c.map (fun k => (Nat.repr k).toList)).flatten ++ [')']) cs []]
    rfl
  refine ⟨hren, ?_, ?_⟩
  · intro hsmall
    rw [hren, cycleStringClaim]
    congr 2
    apply List.map_congr_left
    intro c hc
    rw [decimal_eq_singleChar c (hsmall c hc)]
  · intro hnil
    subst hnil
    rw [hren]
    rfl

theorem c7_toCycleString_rendering_witness :
    perm120.cycles = some [[0, 1, 2]] ∧
    perm120.toCycleString = some (cycleStringClaim [[0, 1, 2]]) ∧
    permId3.cycles = some [] ∧ permId3.toCycleString = some [] :=
  ⟨by decide,
   (c7_toCycleString_rendering perm120 [[0, 1, 2]] (by decide)).2.1 (by decide),
   by decide,
   (c7_toCycleString_rendering permId3 [] (by decide)).2.2 rfl⟩

/-! ## C4: parsing cycle strings -/

theorem indexOfFrom_some {s : List Char} {c : Char} {i j : ℕ}
    (h : indexOfFrom s c i = some j) : i ≤ j ∧ j < s.length := by
  rw [indexOfFrom] at h
  split at h
  · rename_i hlt
    injection h with hj
    rw [List.length_drop] at hlt
    omega
  · cases h

theorem splitCycles_min_length (s : List Char) : ∀ c ∈ splitCycles s, 2 ≤ c.length := by
  intro c hc
  rw [splitCycles, List.mem_filterMap] at hc
  obtain ⟨i, hi, hieq⟩ := hc
  rw [List.mem_range] at hi
  split at hieq
  · split at hieq
    · rename_i j hj
      split at hieq
      · rename_i hcond
        obtain ⟨-, hjlt⟩ := indexOfFrom_some hj
        injection hieq with hieq
        rw [← hieq, List.length_take, List.length_drop]
        omega
      · cases hieq
    · cases hieq
  · cases hieq

theorem parseChar_le35 {c : Char} {v : ℤ} (h : parseChar c = some v) :
    0 ≤ v ∧ v ≤ 35 := by
  have e0 : C0 = 48 := by decide
  have e9 : C9 = 57 := by decide
  have eA : CA = 65 := by decide
  have eZ : CZ = 90 := by decide
  rw [parseChar] at h
  split at h
  · rename_i hc
    injection h with hv
    rw [e0, e9] at hc
    rw [← hv, e0]
    omega
  · split at h
    · rename_i hc
      injection h with hv
      rw [eA, eZ] at hc
      rw [← hv, eA]
      omega
    · cases h

theorem charScanStep_ge {a : ℤ} {c : Char} {v : ℤ} (h : parseChar c = some v) :
    v ≤ charScanStep a c ∧ a ≤ charScanStep a c := by
  have hcs : charScanStep a c = if a < v then v else a := by rw [charScanStep, h]
  rw [hcs]
  rcases lt_or_le a v with h2 | h2
  · rw [if_pos h2]
    exact ⟨le_refl v, le_of_lt h2⟩
  · rw [if_neg (not_lt.mpr h2)]
    exact ⟨h2, le_refl a⟩

theorem charScanStep_cases (a : ℤ) (c : Char) :
    charScanStep a c = a ∨ parseChar c = some (charScanStep a c) := by
  cases hpc : parseChar c with
  | none =>
    exact Or.inl (by rw [charScanStep, hpc])
  | some v =>
    have hcs : charScanStep a c = if a < v then v else a := by rw [charScanStep, hpc]
    rcases lt_or_le a v with h | h
    · rw [hcs, if_pos h]
      exact Or.inr rfl
    · rw [hcs, if_neg (not_lt.mpr h)]
      exact Or.inl rfl

theorem charScanStep_mono {a : ℤ} (c : Char) : a ≤ charScanStep a c := by
  rcases charScanStep_cases a c with h | h
  · rw [h]
  · exact (charScanStep_ge h).2

theorem scan_foldl_facts : ∀ (l : List Char) (a : ℤ),
    a ≤ l.foldl charScanStep a ∧
    (l.foldl charScanStep a = a ∨ ∃ ch ∈ l, parseChar ch = some (l.foldl charScanStep a)) ∧
    (∀ ch ∈ l, ∀ v, parseChar ch = some v → v ≤ l.foldl charScanStep a) := by
  intro l
  induction l with
  | nil => intro a; exact ⟨le_refl a, Or.inl rfl, by simp⟩
  | cons c l ih =>
    intro a
    rw [List.foldl_cons]
    obtain ⟨h1, h2, h3⟩ := ih (charScanStep a c)
    refine ⟨le_trans (charScanStep_mono c) h1, ?_, ?_⟩
    · rcases h2 with h2 | ⟨ch, hch, hpc⟩
      · rcases charScanStep_cases a c with hc | hc
        · exact Or.inl (by rw [h2, hc])
        · rw [h2]
          exact Or.inr ⟨c, List.mem_cons_self c l, hc⟩
      · exact Or.inr ⟨ch, List.mem_cons_of_mem c hch, hpc⟩
    · intro ch hch v hv
      rcases List.mem_cons.mp hch with rfl | hch
      · exact le_trans (charScanStep_ge hv).1 h1
      · exact h3 ch hch v hv

theorem getHighestChar_facts (cycles : List (List Char)) :
    0 ≤ getHighestChar cycles ∧
    (getHighestChar cycles = 0 ∨ ∃ cyc ∈ cycles, ∃ ch ∈ cyc,
      parseChar ch = some (getHighestChar cycles)) ∧
    (∀ cyc ∈ cycles, ∀ ch ∈ cyc, ∀ v, parseChar ch = some v →
      v ≤ getHighestChar cycles) := by
  rw [getHighestChar]
  suffices h : ∀ (l : List (List Char)) (a : ℤ),
      a ≤ l.foldl (fun h cyc => cyc.foldl charScanStep h) a ∧
      (l.foldl (fun h cyc => cyc.foldl charScanStep h) a = a ∨
        ∃ cyc ∈ l, ∃ ch ∈ cyc,
          parseChar ch = some (l.foldl (fun h cyc => cyc.foldl charScanStep h) a)) ∧
      (∀ cyc ∈ l, ∀ ch ∈ cyc, ∀ v, parseChar ch = some v →
        v ≤ l.foldl (fun h cyc => cyc.foldl charScanStep h) a) by
    obtain ⟨h1, h2, h3⟩ := h cycles 0
    exact ⟨h1, h2, h3⟩
  intro l
  induction l with
  | nil => intro a; exact ⟨le_refl a, Or.inl rfl, by simp⟩
  | cons cyc l ih =>
    intro a
    rw [List.foldl_cons]
    obtain ⟨h1, h2, h3⟩ := ih (cyc.foldl charScanStep a)
    obtain ⟨g1, g2, g3⟩ := scan_foldl_facts cyc a
    refine ⟨le_trans g1 h1, ?_, ?_⟩
    · rcases h2 with h2 | ⟨cy, hcy, ch, hch, hpc⟩
      · rcases g2 with g2 | ⟨ch, hch, hpc⟩
        · exact Or.inl (by rw [h2, g2])
        · rw [h2]
          exact Or.inr ⟨cyc, List.mem_cons_self cyc l, ch, hch, hpc⟩
      · exact Or.inr ⟨cy, List.mem_cons_of_mem cyc hcy, ch, hch, hpc⟩
    · intro cy hcy ch hch v hv
      rcases List.mem_cons.mp hcy with rfl | hcy
      · exact le_trans (g3 ch hch v hv) h1
      · exact h3 cy hcy ch hch v hv

theorem getHighestChar_bounds (cycles : List (List Char)) :
    0 ≤ getHighestChar cycles ∧ getHighestChar cycles ≤ 35 := by
  obtain ⟨h1, h2, -⟩ := getHighestChar_facts cycles
  refine ⟨h1, ?_⟩
  rcases h2 with h2 | ⟨cy, hcy, ch, hch, hpc⟩
  · omega
  · exact (parseChar_le35 hpc).2

theorem mapM_option_eq_map {α β : Type} (g : α → Option β) (d : β) :
    ∀ l : List α, (∀ x ∈ l, (g x).isSome = true) →
      l.mapM g = some (l.map (fun x => (g x).getD d)) := by
  intro l
  induction l with
  | nil => intro _; rfl
  | cons a l ih =>
    intro h
    have ha := h a (List.mem_cons_self a l)
    cases hga : g a with
    | none => rw [hga] at ha; cases ha
    | some b =>
      rw [List.mapM_cons, hga, ih (fun x hx => h x (List.mem_cons_of_mem a hx))]
      simp only [List.map_cons, hga, Option.getD_some]
      rfl

theorem fromCycleString_eval (s : List Char) (nArg : Option ℤ) {N : ℤ}
    (hN : (match nArg with
      | some n => n
      | none => getHighestChar (splitCycles s)) = N)
    (h0 : 0 ≤ N) (h35 : N ≤ 35) :
    fromCycleString s nArg =
      some (Permutation.mk? ((intRangeTo N).map
        (fun i => parseChar (followCycles (splitCycles s) ((getChar i).getD ' '))))) := by
  have hmem : ∀ i ∈ intRangeTo N, 0 ≤ i ∧ i ≤ 35 := by
    intro i hi
    rw [intRangeTo, List.mem_map] at hi
    obtain ⟨k, hk, rfl⟩ := hi
    rw [List.mem_range] at hk
    refine ⟨Int.natCast_nonneg k, ?_⟩
    omega
  have hsome : ∀ i ∈ intRangeTo N, ((fun i : ℤ => match getChar i with
      | some c => some (parseChar (followCycles (splitCycles s) c))
      | none => none) i).isSome = true := by
    intro i hi
    obtain ⟨hi0, hi35⟩ := hmem i hi
    have hgs := getChar_isSome hi0 hi35
    cases hgc : getChar i with
    | none => rw [hgc] at hgs; cases hgs
    | some c => simp only [hgc]; rfl
  rw [fromCycleString.eq_def]
  dsimp only
  rw [hN, mapM_option_eq_map _ none _ hsome, Option.map_some']
  congr 2
  apply List.map_congr_left
  intro i hi
  obtain ⟨hi0, hi35⟩ := hmem i hi
  have hgs := getChar_isSome hi0 hi35
  cases hgc : getChar i with
  | none => rw [hgc] at hgs; cases hgs
  | some c =>
    simp only [hgc]
    rw [Option.getD_some, Option.getD_some]

/-- C4 counterexample: the cycle string `"(001)"` induces a non-injective
map — both 0 and 1 land on 0 — so the built array `[0, 0]` fails
validation and `fromCycleString` yields no permutation at all, contrary to
"the resulting Permutation maps each index…". -/
theorem c4_fromCycleString_counterexample :
    fromCycleString ("(001)".toList) none = some none ∧
    parseChar (followCycles (splitCycles ("(001)".toList)) ((getChar 0).getD ' ')) = some 0 ∧
    parseChar (followCycles (splitCycles ("(001)".toList)) ((getChar 1).getD ' ')) = some 0 := by
  decide

/-- C4 (amended): `fromCycleString` extracts, for each `'('` in `s`, the
substring up to the first following `')'` when it has at least 2 characters
(in particular every extracted group has length ≥ 2); an unsupplied `n` is
inferred as the highest code decoded from any character of any extracted
group (or 0 when there is none); and for `i` from 0 through `n` the image
array holds `parseChar(followCycles(splits, getChar(i)))`, where
`followCycles` applies the extracted cycles in reverse order of appearance
and within a found cycle moves to the next character, wrapping from the
last to the first.  The constructor is then applied to that array: a
Permutation (of length `n+1`, with `at(i)` the computed image) results only
when the array passes validation — a non-injective cycle string such as
`"(001)"` produces none.  (For an explicitly supplied `n` this account
assumes `0 ≤ n ≤ 35`; beyond 35 the code instead crashes in
`parseChar(undefined)`.) -/
theorem c4_fromCycleString_contract :
    (∀ s : List Char, ∀ c ∈ splitCycles s, 2 ≤ c.length) ∧
    (∀ s : List Char,
      (getHighestChar (splitCycles s) = 0 ∨ ∃ c ∈ splitCycles s, ∃ ch ∈ c,
        parseChar ch = some (getHighestChar (splitCycles s))) ∧
      (∀ c ∈ splitCycles s, ∀ ch ∈ c, ∀ v, parseChar ch = some v →
        v ≤ getHighestChar (splitCycles s))) ∧
    (∀ (cyc : List Char) (v : Char), v ∈ cyc →
      applyCycle cyc v = cyc.getD ((cyc.indexOf v + 1) % cyc.length) v) ∧
    (∀ (cyc : List Char) (v : Char), v ∉ cyc → applyCycle cyc v = v) ∧
    (∀ s : List Char, fromCycleString s none =
      some (Permutation.mk? ((intRangeTo (getHighestChar (splitCycles s))).map
        (fun i => parseChar (followCycles (splitCycles s) ((getChar i).getD ' ')))))) ∧
    (∀ (s : List Char) (n : ℤ), 0 ≤ n → n ≤ 35 → fromCycleString s (some n) =
      some (Permutation.mk? ((intRangeTo n).map
        (fun i => parseChar (followCycles (splitCycles s) ((getChar i).getD ' ')))))) ∧
    (∀ n : ℤ, 0 ≤ n → (intRangeTo n).length = n.toNat + 1) ∧
    (∀ (arr : List (Option ℤ)) (q : Permutation), Permutation.mk? arr = some q →
      q.length = arr.length ∧ ∀ i : ℕ, q.at' i = arr.getD i none) := by
  refine ⟨splitCycles_min_length, ?_, ?_, ?_, ?_, ?_, ?_, ?_⟩
  · intro s
    obtain ⟨-, h2, h3⟩ := getHighestChar_facts (splitCycles s)
    exact ⟨h2, h3⟩
  · intro cyc v hv
    have hidx : cyc.indexOf v < cyc.length := List.indexOf_lt_length.mpr hv
    rw [applyCycle]
    rw [if_pos hidx]
    rcases Nat.lt_or_ge (cyc.indexOf v) (cyc.length - 1) with h | h
    · rw [if_pos h, Nat.mod_eq_of_lt (by omega)]
    · have heq : cyc.indexOf v = cyc.length - 1 := by omega
      rw [if_neg (by omega), heq,
        show cyc.length - 1 + 1 = cyc.length from by omega, Nat.mod_self]
  · intro cyc v hv
    have hidx : ¬ cyc.indexOf v < cyc.length := by
      rw [List.indexOf_lt_length]
      exact hv
    rw [applyCycle]
    rw [if_neg hidx]
  · intro s
    exact fromCycleString_eval s none rfl (getHighestChar_bounds (splitCycles s)).1
      (getHighestChar_bounds (splitCycles s)).2
  · intro s n h0 h35
    exact fromCycleString_eval s (some n) rfl h0 h35
  · intro n h0
    rw [intRangeTo, List.length_map, List.length_range]
    omega
  · intro arr q hq
    obtain ⟨-, hv⟩ := mk?_eq_some.mp hq
    constructor
    · rw [Permutation.length, hv]
    · intro i
      rw [Permutation.at', hv]

theorem c4_fromCycleString_contract_witness :
    (0 : ℤ) ≤ 3 ∧ (3 : ℤ) ≤ 35 ∧
    fromCycleString ("(01)(23)".toList) (some 3) =
      some (Permutation.mk? ((intRangeTo 3).map
        (fun i => parseChar (followCycles (splitCycles ("(01)(23)".toList))
          ((getChar i).getD ' '))))) ∧
    '1' ∈ ['0', '1'] ∧
    applyCycle ['0', '1'] '1' =
      ['0', '1'].getD ((['0', '1'].indexOf '1' + 1) % ['0', '1'].length) '1' :=
  ⟨by decide, by decide,
   c4_fromCycleString_contract.2.2.2.2.2.1 ("(01)(23)".toList) 3 (by decide) (by decide),
   by decide,
   c4_fromCycleString_contract.2.2.1 ['0', '1'] '1' (by decide)⟩
